import Mathlib

/-!
Shallow embedding of the markdown-heading tree builder of `PromptVisualizer`
(`treeData` / `parseMarkdownToTree` in the source): a stack-based parser that
turns a markdown string into a rooted tree keyed by ATX heading level, followed
by a cleanup pass that replaces empty `children` arrays by `value = 1`.

Strings are modelled as `List Char` (the JS string is a sequence of code
points; none of the claims depend on surrogate-pair details).  The JS regex
`^(#\x7b1,6\x7d)\s+(.*)` is modelled by `headerMatch`, with the ECMAScript
character classes `\s` (`isJsSpace`) and `.` (`isDotChar`) spelled out.

The source mutates a tree through aliased references held on the stack
(`parent.children.push(newNode)` at push time, the node keeps growing while it
is on the stack).  The embedding passes the state explicitly: each stack entry
is a `Frame` holding the node's name, its heading level and the list of its
already-completed children; a child is appended to its parent's list at the
moment it is popped, which is the first moment the source stops mutating it,
so the two representations produce identical trees.
-/

namespace PromptViz

/-- ECMAScript `\s` character class (WhiteSpace ∪ LineTerminator). -/
def isJsSpace (c : Char) : Bool :=
  c.val == 9 || c.val == 10 || c.val == 11 || c.val == 12 || c.val == 13 ||
  c.val == 32 || c.val == 0xa0 || c.val == 0x1680 ||
  (0x2000 ≤ c.val && c.val ≤ 0x200a) ||
  c.val == 0x2028 || c.val == 0x2029 || c.val == 0x202f || c.val == 0x205f ||
  c.val == 0x3000 || c.val == 0xfeff

/-- ECMAScript `.` (without the `s` flag): any character except a line
terminator. -/
def isDotChar (c : Char) : Bool :=
  !(c.val == 10 || c.val == 13 || c.val == 0x2028 || c.val == 0x2029)

/-- `String.prototype.trim`: strip `\s` characters from both ends. -/
def jsTrim (s : List Char) : List Char :=
  ((s.dropWhile isJsSpace).reverse.dropWhile isJsSpace).reverse

/-- `md.split('\n')` : split on every newline, keeping empty pieces
(so `"".split` is `[""]` and `"a\n".split` is `["a", ""]`). -/
def splitLines : List Char → List (List Char)
  | [] => [[]]
  | c :: rest =>
    if c = '\n' then [] :: splitLines rest
    else
      match splitLines rest with
      | [] => [[c]]
      | l :: ls => (c :: l) :: ls

/-- `line.match(/^(#\x7b1,6\x7d)\s+(.*)/)`, reduced to its observable output:
`some (level, text)` where `level` is the length of capture group 1 and `text`
is capture group 2, `none` when the regex does not match.  The regex matches
iff the line starts with a run of `k` hashes, `1 ≤ k ≤ 6`, followed by a `\s`
character (greedy `#\x7b1,6\x7d` over a run of ≥ 7 hashes always leaves a `#`
in front of `\s+`, so such a line never matches); `\s+` then consumes the
maximal whitespace run and `(.*)` the maximal run of non-line-terminator
characters after it. -/
def headerMatch (line : List Char) : Option (Nat × List Char) :=
  let k := (line.takeWhile (fun c => c = '#')).length
  let rest := line.dropWhile (fun c => c = '#')
  if 1 ≤ k ∧ k ≤ 6 then
    match rest with
    | [] => none
    | c :: _ =>
      if isJsSpace c then
        some (k, (rest.dropWhile isJsSpace).takeWhile isDotChar)
      else none
  else none

/-- The tree-node container of the source: `name` always present, `children`
and `value` optional fields. -/
inductive TreeNode where
  | mk (name : String) (children : Option (List TreeNode)) (value : Option Nat)
deriving Repr

def TreeNode.name : TreeNode → String
  | .mk n _ _ => n

def TreeNode.children : TreeNode → Option (List TreeNode)
  | .mk _ c _ => c

def TreeNode.value : TreeNode → Option Nat
  | .mk _ _ v => v

/-- One stack entry `(node, level)` of the source; since the node at the top
of the stack is still growing, the frame holds the children completed so far
instead of a finished node. -/
structure Frame where
  name : String
  level : Nat
  childrenAcc : List TreeNode
deriving Repr

/-- The node a frame denotes once no more children can be added to it:
in the source every node is created as `\x7b name: text, children: [] \x7d`
(children present, `value` absent) and its children array has accumulated
`childrenAcc`. -/
def closeFrame (f : Frame) : TreeNode :=
  .mk f.name (some f.childrenAcc) none

/-- `while (stack.length > 0 && stack[stack.length - 1].level >= level)
stack.pop();` — the head of the list is the top of the stack.  A popped
frame's node is complete; it travels in `pending` until it is attached to
the frame below it (its parent), or is dropped if the stack ran out (the
unreachable `if (stack.length > 0)` guard of the source). -/
def popAux (level : Nat) (pending : Option TreeNode) : List Frame → List Frame
  | [] => []
  | f :: rest =>
    let f' := match pending with
      | none => f
      | some t => { f with childrenAcc := f.childrenAcc ++ [t] }
    if level ≤ f'.level then popAux level (some (closeFrame f')) rest
    else f' :: rest

def popLoop (level : Nat) (s : List Frame) : List Frame :=
  popAux level none s

/-- Processing of one line of the `lines.forEach` loop: a non-matching line
leaves the stack unchanged; a heading pops to the correct parent and pushes
the new node `\x7b name: text.trim(), children: [] \x7d` with its level. -/
def processLine (s : List Frame) (line : List Char) : List Frame :=
  match headerMatch line with
  | none => s
  | some (level, text) =>
    Frame.mk (String.mk (jsTrim text)) level [] :: popLoop level s

/-- The initial stack `[\x7b node: root, level: 0 \x7d]` with
`root = \x7b name: "System Prompt", children: [] \x7d`. -/
def initStack : List Frame := [Frame.mk "System Prompt" 0 []]

def finalStack (md : List Char) : List Frame :=
  (splitLines md).foldl processLine initStack

/-- Fold the remaining open frames at the end of the loop: each still-open
node becomes a completed child of the frame below it; the bottom frame is the
root the source returns. -/
def collapse1 (f : Frame) : List Frame → TreeNode
  | [] => closeFrame f
  | g :: rest => collapse1 { g with childrenAcc := g.childrenAcc ++ [closeFrame f] } rest

/-- The tree before cleanup, `none` if the final stack were empty (provably
impossible: the root sentinel is never popped and every heading pushes). -/
def rawTree (md : List Char) : Option TreeNode :=
  match finalStack md with
  | [] => none
  | f :: rest => some (collapse1 f rest)

mutual
/-- `cleanTree`: delete empty `children` arrays and mark such nodes with
`value = 1`; recurse through non-empty `children`; leave nodes without a
`children` field alone. -/
def cleanTree : TreeNode → TreeNode
  | .mk name none v => .mk name none v
  | .mk name (some []) _ => .mk name none (some 1)
  | .mk name (some (c :: cs)) v => .mk name (some (cleanTreeList (c :: cs))) v

/-- `node.children.forEach(cleanTree)` over a non-empty children array. -/
def cleanTreeList : List TreeNode → List TreeNode
  | [] => []
  | t :: ts => cleanTree t :: cleanTreeList ts
end

/-- `treeData` : the whole builder, parse then cleanup.  The `none` branch is
unreachable (`rawTree_isSome` below); the source would return the root object
there as well. -/
def treeData (md : List Char) : TreeNode :=
  match rawTree md with
  | some t => cleanTree t
  | none => cleanTree (closeFrame (Frame.mk "System Prompt" 0 []))

/-- The stack after the first `i` iterations of the `lines.forEach` loop. -/
def stackAfter (md : List Char) (i : Nat) : List Frame :=
  ((splitLines md).take i).foldl processLine initStack

/-- The stack's level sequence is a list of levels ≥ 1 sitting on top of the
root sentinel's level 0. -/
def GoodLevels (s : List Frame) : Prop :=
  ∃ ls, s.map Frame.level = ls ++ [0] ∧ ∀ x ∈ ls, 1 ≤ x

/-- `P` holds at every node of a tree (the node itself and, recursively,
every entry of its `children` field when that field is present). -/
inductive AllNodes (P : TreeNode → Prop) : TreeNode → Prop
  | mk (n : String) (c : Option (List TreeNode)) (v : Option Nat) :
      P (.mk n c v) → (∀ t ∈ c.getD [], AllNodes P t) → AllNodes P (.mk n c v)

/-- Shape of every node while the tree is being built: `children` present
(possibly empty), `value` absent. -/
def RawShape (t : TreeNode) : Prop :=
  (∃ cs, t.children = some cs) ∧ t.value = none

/-- Shape of every node of a finished tree: exactly one of "`children`
present and non-empty" and "`value` present and equal to 1". -/
def CleanShape (t : TreeNode) : Prop :=
  Xor' (∃ cs, t.children = some cs ∧ cs ≠ []) (t.value = some 1)

/-- Every completed child stored on the stack is raw-shaped. -/
def FramesRaw (s : List Frame) : Prop :=
  ∀ f ∈ s, ∀ t ∈ f.childrenAcc, AllNodes RawShape t

/-- Concatenate lines back into a document with `'\n'` separators. -/
def joinLines : List (List Char) → List Char
  | [] => []
  | [l] => l
  | l :: l2 :: ls => l ++ '\n' :: joinLines (l2 :: ls)

/-- The input document with every line that does not match the heading
pattern deleted. -/
def keepHeadingLines (md : List Char) : List Char :=
  joinLines ((splitLines md).filter (fun l => (headerMatch l).isSome))

/- ------------------------------------------------------------------ -/
/- Generic list lemmas                                                 -/
/- ------------------------------------------------------------------ -/

theorem dropWhile_head_not {α : Type} (p : α → Bool) :
    ∀ (l : List α) (x : α) (xs : List α), l.dropWhile p = x :: xs → p x = false
  | [], x, xs, h => by simp [List.dropWhile] at h
  | a :: l, x, xs, h => by
    rw [List.dropWhile_cons] at h
    split at h
    · exact dropWhile_head_not p l x xs h
    · rename_i hc
      cases h
      simpa using hc

/- ------------------------------------------------------------------ -/
/- The pop loop                                                        -/
/- ------------------------------------------------------------------ -/

/-- Popping only removes entries from the top of the stack: the
`(name, level)` pairs that survive are exactly the stack entries left after
dropping the maximal run of entries with level ≥ the new heading's level. -/
theorem popAux_keys (level : Nat) (pending : Option TreeNode) :
    ∀ s : List Frame,
      (popAux level pending s).map (fun f => (f.name, f.level)) =
        (s.map (fun f => (f.name, f.level))).dropWhile (fun p => level ≤ p.2)
  | [] => by cases pending <;> simp [popAux]
  | f :: rest => by
    cases pending with
    | none =>
      by_cases h : level ≤ f.level <;>
        simp [popAux, List.dropWhile_cons, h, popAux_keys level _ rest]
    | some t =>
      by_cases h : level ≤ f.level <;>
        simp [popAux, List.dropWhile_cons, h, popAux_keys level _ rest]

theorem popAux_levels (level : Nat) (pending : Option TreeNode) :
    ∀ s : List Frame,
      (popAux level pending s).map Frame.level =
        (s.map Frame.level).dropWhile (fun x => level ≤ x)
  | [] => by cases pending <;> simp [popAux]
  | f :: rest => by
    cases pending with
    | none =>
      by_cases h : level ≤ f.level <;>
        simp [popAux, List.dropWhile_cons, h, popAux_levels level _ rest]
    | some t =>
      by_cases h : level ≤ f.level <;>
        simp [popAux, List.dropWhile_cons, h, popAux_levels level _ rest]

theorem popLoop_keys (level : Nat) (s : List Frame) :
    (popLoop level s).map (fun f => (f.name, f.level)) =
      (s.map (fun f => (f.name, f.level))).dropWhile (fun p => level ≤ p.2) :=
  popAux_keys level none s

theorem popLoop_levels (level : Nat) (s : List Frame) :
    (popLoop level s).map Frame.level =
      (s.map Frame.level).dropWhile (fun x => level ≤ x) :=
  popAux_levels level none s

/- ------------------------------------------------------------------ -/
/- The stack level invariant                                           -/
/- ------------------------------------------------------------------ -/

theorem dropWhile_levels_app_zero (level : Nat) (h1 : 1 ≤ level) :
    ∀ ls : List Nat,
      (ls ++ [0]).dropWhile (fun x => level ≤ x) =
        ls.dropWhile (fun x => level ≤ x) ++ [0]
  | [] => by
    have h0 : ¬ level ≤ 0 := by omega
    simp [List.dropWhile_cons, h0]
  | x :: ls => by
    by_cases h : level ≤ x <;>
      simp [List.dropWhile_cons, h, dropWhile_levels_app_zero level h1 ls]

theorem goodLevels_initStack : GoodLevels initStack :=
  ⟨[], rfl, by simp⟩

theorem goodLevels_ne_nil {s : List Frame} (hs : GoodLevels s) : s ≠ [] := by
  obtain ⟨ls, hmap, -⟩ := hs
  intro h
  subst h
  simp at hmap

theorem goodLevels_popLoop (level : Nat) (h1 : 1 ≤ level) {s : List Frame}
    (hs : GoodLevels s) : GoodLevels (popLoop level s) := by
  obtain ⟨ls, hmap, hge⟩ := hs
  refine ⟨ls.dropWhile (fun x => level ≤ x), ?_, ?_⟩
  · rw [popLoop_levels, hmap, dropWhile_levels_app_zero level h1]
  · intro x hx
    exact hge x (List.Sublist.subset (List.dropWhile_sublist _) hx)

theorem headerMatch_level_bounds {line : List Char} {level : Nat}
    {text : List Char} (h : headerMatch line = some (level, text)) :
    1 ≤ level ∧ level ≤ 6 := by
  unfold headerMatch at h
  simp only at h
  split at h
  · rename_i hk
    split at h
    · exact absurd h (by simp)
    · split at h
      · cases h
        exact hk
      · exact absurd h (by simp)
  · exact absurd h (by simp)

theorem goodLevels_processLine {s : List Frame} (hs : GoodLevels s)
    (line : List Char) : GoodLevels (processLine s line) := by
  unfold processLine
  cases h : headerMatch line with
  | none => exact hs
  | some lt =>
    obtain ⟨level, text⟩ := lt
    have hb := headerMatch_level_bounds h
    obtain ⟨ls, hmap, hge⟩ := goodLevels_popLoop level hb.1 hs
    refine ⟨level :: ls, by simp [hmap], ?_⟩
    intro x hx
    rcases List.mem_cons.mp hx with rfl | hx
    · exact hb.1
    · exact hge x hx

theorem goodLevels_foldl :
    ∀ (ls : List (List Char)) (s : List Frame), GoodLevels s →
      GoodLevels (ls.foldl processLine s)
  | [], _, hs => hs
  | l :: ls, s, hs =>
    goodLevels_foldl ls (processLine s l) (goodLevels_processLine hs l)

/- ------------------------------------------------------------------ -/
/- Claim theorems                                                      -/
/- ------------------------------------------------------------------ -/

/-- C1: on every heading line the new node is pushed directly on top of the
popped stack; the pop loop removes exactly the maximal run of top entries
whose level is ≥ the new heading's level (so the node's parent — the frame
it is appended to as last child when it is closed — is the nearest surviving
entry, whose level is strictly less than the heading's level). -/
theorem heading_attached_under_nearest_shallower (s : List Frame)
    (line : List Char) (level : Nat) (text : List Char)
    (h : headerMatch line = some (level, text)) :
    processLine s line =
      Frame.mk (String.mk (jsTrim text)) level [] :: popLoop level s ∧
    (popLoop level s).map (fun f => (f.name, f.level)) =
      (s.map (fun f => (f.name, f.level))).dropWhile (fun p => level ≤ p.2) ∧
    ∀ f rest, popLoop level s = f :: rest → f.level < level := by
  refine ⟨by simp [processLine, h], popLoop_keys level s, ?_⟩
  intro f rest hfr
  have hk := popLoop_keys level s
  rw [hfr] at hk
  have hhead := dropWhile_head_not _ _ _ _ hk.symm
  simp only [decide_eq_false_iff_not, not_le] at hhead
  exact hhead

theorem heading_attached_under_nearest_shallower_witness :
    processLine initStack "## B".data =
      Frame.mk (String.mk (jsTrim ['B'])) 2 [] :: popLoop 2 initStack ∧
    (popLoop 2 initStack).map (fun f => (f.name, f.level)) =
      (initStack.map (fun f => (f.name, f.level))).dropWhile
        (fun p => 2 ≤ p.2) ∧
    ∀ f rest, popLoop 2 initStack = f :: rest → f.level < 2 :=
  heading_attached_under_nearest_shallower initStack "## B".data 2 ['B']
    (by decide)

/-- C3: at any point of the line loop, popping for a matched heading leaves
the stack non-empty — the root sentinel at level 0 is never popped because
every matched heading level is ≥ 1 — so the silently-drop branch of the
source is unreachable and the new node is always attached. -/
theorem popLoop_never_empty (md : List Char) (i : Nat) (line : List Char)
    (level : Nat) (text : List Char)
    (h : headerMatch line = some (level, text)) :
    popLoop level (stackAfter md i) ≠ [] := by
  have hg : GoodLevels (stackAfter md i) :=
    goodLevels_foldl _ _ goodLevels_initStack
  exact goodLevels_ne_nil
    (goodLevels_popLoop level (headerMatch_level_bounds h).1 hg)

theorem popLoop_never_empty_witness :
    popLoop 2 (stackAfter "# A".data 1) ≠ [] :=
  popLoop_never_empty "# A".data 1 "## B".data 2 ['B'] (by decide)

/-- C5: a heading whose level exceeds the stack top's level pops nothing, so
it attaches directly under the deepest current node with no synthesized
intermediate levels; in particular `"# A\n### C"` puts `C` directly under
`A`. -/
theorem level_skip :
    (∀ (rest : List Frame) (f : Frame) (level : Nat), f.level < level →
        popLoop level (f :: rest) = f :: rest) ∧
    treeData "# A\n### C".data =
      TreeNode.mk "System Prompt"
        (some [TreeNode.mk "A" (some [TreeNode.mk "C" none (some 1)]) none])
        none := by
  constructor
  · intro rest f level hf
    simp only [popLoop, popAux]
    rw [if_neg (by omega)]
  · rfl

theorem level_skip_witness :
    popLoop 3 [Frame.mk "A" 1 [], Frame.mk "System Prompt" 0 []] =
      [Frame.mk "A" 1 [], Frame.mk "System Prompt" 0 []] :=
  level_skip.1 [Frame.mk "System Prompt" 0 []] (Frame.mk "A" 1 []) 3
    (by decide)

/-- C7: the builder is total — for every input the final stack is non-empty,
the parse produces a root node (never `none`, no failure branch is taken)
and `treeData` returns its cleanup. -/
theorem treeData_total (md : List Char) :
    ∃ f rest, finalStack md = f :: rest ∧
      rawTree md = some (collapse1 f rest) ∧
      treeData md = cleanTree (collapse1 f rest) := by
  have hg : GoodLevels (finalStack md) :=
    goodLevels_foldl _ _ goodLevels_initStack
  have hne := goodLevels_ne_nil hg
  cases hfs : finalStack md with
  | nil => exact absurd hfs hne
  | cons f rest =>
    refine ⟨f, rest, rfl, ?_, ?_⟩
    · simp [rawTree, hfs]
    · simp [treeData, rawTree, hfs]

/-- C8: the builder is deterministic — it is a pure function of the input
string, so two invocations on equal inputs yield structurally identical
trees. -/
theorem treeData_deterministic (md1 md2 : List Char) (t1 t2 : TreeNode)
    (h12 : md1 = md2) (h1 : treeData md1 = t1) (h2 : treeData md2 = t2) :
    t1 = t2 := by
  subst h12
  subst h1
  subst h2
  rfl

/- ------------------------------------------------------------------ -/
/- Node shape invariants                                               -/
/- ------------------------------------------------------------------ -/

theorem cleanTreeList_eq_map :
    ∀ ts : List TreeNode, cleanTreeList ts = ts.map cleanTree
  | [] => rfl
  | t :: ts => by rw [cleanTreeList, List.map_cons, cleanTreeList_eq_map ts]

theorem closeFrame_raw {f : Frame}
    (h : ∀ t ∈ f.childrenAcc, AllNodes RawShape t) :
    AllNodes RawShape (closeFrame f) := by
  rw [closeFrame]
  exact AllNodes.mk f.name (some f.childrenAcc) none
    ⟨⟨f.childrenAcc, rfl⟩, rfl⟩ (by simpa using h)

theorem framesRaw_popAux (level : Nat) :
    ∀ (pending : Option TreeNode) (s : List Frame),
      (∀ t, pending = some t → AllNodes RawShape t) → FramesRaw s →
      FramesRaw (popAux level pending s)
  | pending, [], _, _ => by
    cases pending <;> simp [popAux, FramesRaw]
  | none, f :: rest, _, hs => by
    simp only [popAux]
    split
    · apply framesRaw_popAux level _ rest
      · intro t ht
        injection ht with ht
        subst ht
        exact closeFrame_raw (hs f (by simp))
      · intro g hg
        exact hs g (by simp [hg])
    · exact hs
  | some t, f :: rest, hp, hs => by
    have hf' : ∀ u ∈ f.childrenAcc ++ [t], AllNodes RawShape u := by
      intro u hu
      rcases List.mem_append.mp hu with hu | hu
      · exact hs f (by simp) u hu
      · rw [List.mem_singleton.mp hu]
        exact hp t rfl
    simp only [popAux]
    split
    · apply framesRaw_popAux level _ rest
      · intro u hu
        injection hu with hu
        subst hu
        exact closeFrame_raw (by simpa using hf')
      · intro g hg
        exact hs g (by simp [hg])
    · intro g hg
      rcases List.mem_cons.mp hg with rfl | hg
      · simpa using hf'
      · exact hs g (by simp [hg])

theorem framesRaw_initStack : FramesRaw initStack := by
  intro f hf t ht
  simp [initStack] at hf
  subst hf
  simp at ht

theorem framesRaw_processLine {s : List Frame} (hs : FramesRaw s)
    (line : List Char) : FramesRaw (processLine s line) := by
  unfold processLine
  cases h : headerMatch line with
  | none => exact hs
  | some lt =>
    obtain ⟨level, text⟩ := lt
    intro f hf
    rcases List.mem_cons.mp hf with rfl | hf
    · intro t ht
      simp at ht
    · exact framesRaw_popAux level none s (by simp) hs f hf

theorem framesRaw_foldl :
    ∀ (ls : List (List Char)) (s : List Frame), FramesRaw s →
      FramesRaw (ls.foldl processLine s)
  | [], _, hs => hs
  | l :: ls, s, hs =>
    framesRaw_foldl ls (processLine s l) (framesRaw_processLine hs l)

theorem collapse1_raw :
    ∀ (rest : List Frame) (f : Frame),
      (∀ t ∈ f.childrenAcc, AllNodes RawShape t) → FramesRaw rest →
      AllNodes RawShape (collapse1 f rest)
  | [], _, hf, _ => closeFrame_raw hf
  | g :: rest, f, hf, hrest => by
    rw [collapse1]
    apply collapse1_raw rest
    · intro t ht
      simp only [List.mem_append] at ht
      rcases ht with ht | ht
      · exact hrest g (by simp) t (by simpa using ht)
      · rw [List.mem_singleton.mp ht]
        exact closeFrame_raw hf
    · intro g' hg'
      exact hrest g' (by simp [hg'])

theorem allNodes_clean_of_raw {t : TreeNode} (h : AllNodes RawShape t) :
    AllNodes CleanShape (cleanTree t) := by
  induction h with
  | mk n c v hP hc ih =>
    obtain ⟨⟨cs, hcs⟩, hv⟩ := hP
    simp only [TreeNode.children] at hcs
    simp only [TreeNode.value] at hv
    subst hcs
    subst hv
    cases cs with
    | nil =>
      show AllNodes CleanShape (TreeNode.mk n none (some 1))
      refine AllNodes.mk n none (some 1) (Or.inr ⟨rfl, ?_⟩) (by simp)
      rintro ⟨cs', hcs', -⟩
      simp [TreeNode.children] at hcs'
    | cons a as =>
      show AllNodes CleanShape
        (TreeNode.mk n (some (cleanTreeList (a :: as))) none)
      refine AllNodes.mk n (some (cleanTreeList (a :: as))) none
        (Or.inl ⟨⟨cleanTreeList (a :: as), rfl, ?_⟩, ?_⟩) ?_
      · simp [cleanTreeList_eq_map]
      · simp [TreeNode.value]
      · intro t ht
        simp only [Option.getD_some, cleanTreeList_eq_map, List.mem_map]
          at ht
        obtain ⟨u, hu, rfl⟩ := ht
        exact ih u (by simpa using hu)

/-- C2: every node of every produced tree satisfies exactly one of
"`children` present and non-empty" and "`value` present and equal to 1" —
never both and never neither. -/
theorem treeData_clean_shape (md : List Char) :
    AllNodes CleanShape (treeData md) := by
  have hfr : FramesRaw (finalStack md) :=
    framesRaw_foldl _ _ framesRaw_initStack
  unfold treeData rawTree
  cases hfs : finalStack md with
  | nil =>
    exact allNodes_clean_of_raw (closeFrame_raw (by simp))
  | cons f rest =>
    rw [hfs] at hfr
    exact allNodes_clean_of_raw
      (collapse1_raw rest f (fun t ht => hfr f (by simp) t ht)
        (fun g hg => hfr g (by simp [hg])))

theorem treeData_deterministic_witness :
    treeData "# A".data =
      TreeNode.mk "System Prompt" (some [TreeNode.mk "A" none (some 1)])
        none :=
  treeData_deterministic "# A".data "# A".data (treeData "# A".data)
    (TreeNode.mk "System Prompt" (some [TreeNode.mk "A" none (some 1)]) none)
    rfl rfl rfl

/- ------------------------------------------------------------------ -/
/- Lines and line filtering                                            -/
/- ------------------------------------------------------------------ -/

theorem treeData_congr {a b : List Char} (h : finalStack a = finalStack b) :
    treeData a = treeData b := by
  unfold treeData rawTree
  rw [h]

theorem splitLines_ne_nil : ∀ md : List Char, splitLines md ≠ []
  | [] => by simp [splitLines]
  | c :: rest => by
    rw [splitLines]
    split
    · simp
    · cases hsp : splitLines rest with
      | nil => simp
      | cons l ls => simp

theorem splitLines_no_nl : ∀ {l : List Char}, '\n' ∉ l → splitLines l = [l]
  | [], _ => rfl
  | c :: l, h => by
    have hc : ¬ c = '\n' := fun hh => h (by simp [hh])
    have ih := splitLines_no_nl (l := l) (fun hh => h (by simp [hh]))
    rw [splitLines, if_neg hc, ih]

theorem splitLines_no_newline :
    ∀ (md : List Char), ∀ l ∈ splitLines md, '\n' ∉ l
  | [], l, hl => by
    simp [splitLines] at hl
    subst hl
    simp
  | c :: rest, l, hl => by
    rw [splitLines] at hl
    by_cases hc : c = '\n'
    · rw [if_pos hc] at hl
      rcases List.mem_cons.mp hl with rfl | hl
      · simp
      · exact splitLines_no_newline rest l hl
    · rw [if_neg hc] at hl
      cases hsp : splitLines rest with
      | nil => exact absurd hsp (splitLines_ne_nil rest)
      | cons l0 ls =>
        rw [hsp] at hl
        rcases List.mem_cons.mp hl with rfl | hl
        · have h0 := splitLines_no_newline rest l0 (by rw [hsp]; simp)
          intro hmem
          rcases List.mem_cons.mp hmem with h1 | h1
          · exact hc h1.symm
          · exact h0 h1
        · exact splitLines_no_newline rest l (by rw [hsp]; simp [hl])

theorem splitLines_append_nl :
    ∀ (l rest : List Char), '\n' ∉ l →
      splitLines (l ++ '\n' :: rest) = l :: splitLines rest
  | [], rest, _ => by
    rw [List.nil_append, splitLines, if_pos rfl]
  | c :: l, rest, h => by
    have hc : ¬ c = '\n' := fun hh => h (by simp [hh])
    have ih := splitLines_append_nl l rest (fun hh => h (by simp [hh]))
    rw [List.cons_append, splitLines, if_neg hc, ih]

theorem splitLines_joinLines :
    ∀ lls : List (List Char), lls ≠ [] → (∀ l ∈ lls, '\n' ∉ l) →
      splitLines (joinLines lls) = lls
  | [], h, _ => absurd rfl h
  | [l], _, hl => by
    rw [joinLines]
    exact splitLines_no_nl (hl l (by simp))
  | l :: l2 :: ls, _, hl => by
    rw [joinLines, splitLines_append_nl l _ (hl l (by simp)),
      splitLines_joinLines (l2 :: ls) (by simp)
        (fun l' hl' => hl l' (List.mem_cons_of_mem _ hl'))]

theorem foldl_no_heading :
    ∀ (ls : List (List Char)) (s : List Frame),
      (∀ l ∈ ls, headerMatch l = none) → ls.foldl processLine s = s
  | [], _, _ => rfl
  | l :: ls, s, h => by
    rw [List.foldl_cons]
    have hl : processLine s l = s := by simp [processLine, h l (by simp)]
    rw [hl, foldl_no_heading ls s (fun l' hl' => h l' (by simp [hl']))]

theorem foldl_filter_heading :
    ∀ (ls : List (List Char)) (s : List Frame),
      (ls.filter (fun l => (headerMatch l).isSome)).foldl processLine s =
        ls.foldl processLine s
  | [], _ => rfl
  | l :: ls, s => by
    rw [List.filter_cons, List.foldl_cons]
    cases h : headerMatch l with
    | none =>
      have h1 : processLine s l = s := by simp [processLine, h]
      simp only [h, Option.isSome_none, Bool.false_eq_true, if_false]
      rw [foldl_filter_heading ls s, h1]
    | some lt =>
      simp only [h, Option.isSome_some, if_true]
      rw [List.foldl_cons, foldl_filter_heading ls (processLine s l)]

/-- C6: the empty string, and any string none of whose lines matches the
heading pattern, builds a single node with the fixed root name, no
`children` field, and `value = 1`. -/
theorem no_heading_gives_root_leaf :
    treeData [] = TreeNode.mk "System Prompt" none (some 1) ∧
    ∀ md : List Char, (∀ l ∈ splitLines md, headerMatch l = none) →
      treeData md = TreeNode.mk "System Prompt" none (some 1) := by
  refine ⟨rfl, ?_⟩
  intro md h
  have h1 : finalStack md = initStack := foldl_no_heading _ _ h
  unfold treeData rawTree
  rw [h1]
  rfl

theorem no_heading_gives_root_leaf_witness :
    treeData "hello world".data = TreeNode.mk "System Prompt" none (some 1) :=
  no_heading_gives_root_leaf.2 "hello world".data (by decide)

/-- C9: a line starting with seven or more `#`, or with one to six `#` not
followed by a whitespace character, never matches the heading pattern, and
such a line alone builds the same tree as the empty string. -/
theorem malformed_heading_ignored (line : List Char) (hnl : '\n' ∉ line)
    (h : 7 ≤ (line.takeWhile (fun c => c = '#')).length ∨
      (1 ≤ (line.takeWhile (fun c => c = '#')).length ∧
        (line.takeWhile (fun c => c = '#')).length ≤ 6 ∧
        ∀ c, (line.dropWhile (fun c => c = '#')).head? = some c →
          isJsSpace c = false)) :
    headerMatch line = none ∧ treeData line = treeData [] := by
  have hm : headerMatch line = none := by
    unfold headerMatch
    simp only
    rcases h with h7 | ⟨hk1, hk6, hws⟩
    · rw [if_neg (by omega)]
    · rw [if_pos ⟨hk1, hk6⟩]
      cases hrest : line.dropWhile (fun c => c = '#') with
      | nil => rfl
      | cons c tl =>
        have := hws c (by rw [hrest]; rfl)
        simp [this]
  refine ⟨hm, treeData_congr ?_⟩
  unfold finalStack
  rw [splitLines_no_nl hnl]
  simp only [List.foldl_cons, List.foldl_nil]
  simp [processLine, hm]
  rfl

theorem malformed_heading_ignored_witness :
    headerMatch "#Title".data = none ∧
    treeData "#Title".data = treeData [] :=
  malformed_heading_ignored "#Title".data (by decide)
    (Or.inr ⟨by decide, by decide, fun c hc => by
      rw [show ("#Title".data.dropWhile (fun c => c = '#')).head? = some 'T'
        from by decide] at hc
      cases hc
      decide⟩)

/-- C4: non-heading lines contribute nothing — deleting every line that does
not match the heading pattern yields the same tree; in particular
`"Some text\n# A\nMore text\n## B"` and `"# A\n## B"` build the same tree. -/
theorem nonheading_lines_ignored :
    (∀ md : List Char, treeData (keepHeadingLines md) = treeData md) ∧
    treeData "Some text\n# A\nMore text\n## B".data =
      treeData "# A\n## B".data := by
  refine ⟨?_, rfl⟩
  intro md
  apply treeData_congr
  unfold finalStack keepHeadingLines
  cases hf : (splitLines md).filter (fun l => (headerMatch l).isSome) with
  | nil =>
    have hR : (splitLines md).foldl processLine initStack = initStack := by
      rw [← foldl_filter_heading (splitLines md) initStack, hf]
      rfl
    rw [hR]
    rfl
  | cons a as =>
    have hmem : ∀ l ∈ a :: as, '\n' ∉ l := by
      intro l hl
      rw [← hf] at hl
      exact splitLines_no_newline md l (List.mem_filter.mp hl).1
    rw [splitLines_joinLines (a :: as) (by simp) hmem,
      ← foldl_filter_heading (splitLines md) initStack, hf]

/- ------------------------------------------------------------------ -/
/- Whitespace-only heading text                                        -/
/- ------------------------------------------------------------------ -/

theorem dropWhile_all_nil {α : Type} (p : α → Bool) :
    ∀ l : List α, (∀ c ∈ l, p c = true) → l.dropWhile p = []
  | [], _ => rfl
  | a :: l, h => by
    rw [List.dropWhile_cons, if_pos (h a (by simp))]
    exact dropWhile_all_nil p l (fun c hc => h c (by simp [hc]))

theorem takeWhile_append_all {α : Type} (p : α → Bool) :
    ∀ (l1 l2 : List α), (∀ c ∈ l1, p c = true) →
      (∀ c, l2.head? = some c → p c = false) →
      (l1 ++ l2).takeWhile p = l1 ∧ (l1 ++ l2).dropWhile p = l2
  | [], l2, _, h2 => by
    cases l2 with
    | nil => exact ⟨rfl, rfl⟩
    | cons c tl =>
      have hc := h2 c rfl
      exact ⟨by simp [List.takeWhile_cons, hc],
        by simp [List.dropWhile_cons, hc]⟩
  | a :: l1, l2, h1, h2 => by
    have ha : p a = true := h1 a (by simp)
    have ih := takeWhile_append_all p l1 l2 (fun c hc => h1 c (by simp [hc])) h2
    exact ⟨by simp [List.takeWhile_cons, ha, ih.1],
      by simp [List.dropWhile_cons, ha, ih.2]⟩

/-- C10: a line of one to six `#` followed only by whitespace does match the
heading pattern, with empty captured text, and produces a node whose name is
the empty string — heading text is not required to be non-empty. -/
theorem whitespace_only_heading (k : Nat) (ws : List Char) (hk1 : 1 ≤ k)
    (hk6 : k ≤ 6) (hws : ws ≠ []) (hall : ∀ c ∈ ws, isJsSpace c = true)
    (hnl : '\n' ∉ ws) :
    headerMatch (List.replicate k '#' ++ ws) = some (k, []) ∧
    treeData (List.replicate k '#' ++ ws) =
      TreeNode.mk "System Prompt" (some [TreeNode.mk "" none (some 1)])
        none := by
  obtain ⟨w, tl, rfl⟩ : ∃ w tl, ws = w :: tl := by
    cases ws with
    | nil => exact absurd rfl hws
    | cons w tl => exact ⟨w, tl, rfl⟩
  have hhash : ∀ c ∈ w :: tl, ¬ c = '#' := by
    intro c hc hh
    subst hh
    exact absurd (hall '#' hc) (by decide)
  have hta := takeWhile_append_all (fun c => decide (c = '#'))
    (List.replicate k '#') (w :: tl)
    (fun c hc => by simp [List.eq_of_mem_replicate hc])
    (fun c hc => by
      simp only [List.head?_cons, Option.some.injEq] at hc
      subst hc
      simp [hhash w (by simp)])
  have hm : headerMatch (List.replicate k '#' ++ (w :: tl)) =
      some (k, []) := by
    unfold headerMatch
    simp only
    rw [hta.1, hta.2, List.length_replicate, if_pos ⟨hk1, hk6⟩]
    simp [hall w (by simp), dropWhile_all_nil isJsSpace (w :: tl) hall]
  have hlinenl : '\n' ∉ List.replicate k '#' ++ (w :: tl) := by
    intro hmem
    rcases List.mem_append.mp hmem with hm1 | hm2
    · exact absurd (List.eq_of_mem_replicate hm1) (by decide)
    · exact hnl hm2
  have h0 : ¬ k ≤ 0 := by omega
  have hfs : finalStack (List.replicate k '#' ++ (w :: tl)) =
      [Frame.mk "" k [], Frame.mk "System Prompt" 0 []] := by
    unfold finalStack
    rw [splitLines_no_nl hlinenl]
    simp only [List.foldl_cons, List.foldl_nil]
    simp [processLine, hm, popLoop, popAux, initStack, h0, jsTrim]
  refine ⟨hm, ?_⟩
  unfold treeData rawTree
  rw [hfs]
  rfl

theorem whitespace_only_heading_witness :
    headerMatch (List.replicate 1 '#' ++ [' ']) = some (1, []) ∧
    treeData (List.replicate 1 '#' ++ [' ']) =
      TreeNode.mk "System Prompt" (some [TreeNode.mk "" none (some 1)])
        none :=
  whitespace_only_heading 1 [' '] (by decide) (by decide) (by decide)
    (by decide) (by decide)

end PromptViz
